import Mathlib

/-!
Verification of the merge-request push workflow (tsrc/cli/push.py).

Strings are modelled by their character lists (`String.data`), so Python
slicing and prefix tests become `List.drop` and `List.isPrefixOf` on
`List Char`.  Fallible Python functions that can fall through and return
`None` are modelled with `Option`.
-/

namespace Tsrc

/-- The constant `WIP_PREFIX = "WIP: "` from push.py (renamed here). -/
def wipMarker : String := "WIP: "

/-- Embeds `wipify` from push.py:
`if not title.startswith(WIP_PREFIX): return WIP_PREFIX + title`
(and an implicit `return None` when the condition fails). -/
def wipify (title : String) : Option String :=
  if !(wipMarker.data.isPrefixOf title.data) then some (wipMarker ++ title)
  else none

/-- Embeds `unwipify` from push.py:
`if title.startswith(WIP_PREFIX): return title[len(WIP_PREFIX):]`
(and an implicit `return None` when the condition fails). -/
def unwipify (title : String) : Option String :=
  if wipMarker.data.isPrefixOf title.data then
    some (String.mk (title.data.drop wipMarker.data.length))
  else none

/-- A merge request as used by push.py: the dict keys read by the code. -/
structure MergeRequest where
  iid : Nat
  title : String
  web_url : String
deriving DecidableEq

/-- A forge user account: the dict keys read by `get_assignee`. -/
structure User where
  id : Nat
  name : String
deriving DecidableEq

/-- Command-line arguments consumed by push.py.  Optional string arguments
default to `None` in argparse, hence `Option String`. -/
structure Args where
  mr_title : Option String
  ready : Bool
  wip : Bool
  accept : Bool
  assignee : Option String
  target_branch : String
  force : Bool

/-- Python truthiness of an optional string: `None` and `""` are falsy. -/
def strTruthy : Option String → Bool
  | none => false
  | some s => !(s == "")

/-- Embeds `MRHandler.handle_title`: explicit title wins when truthy, else
`--ready` applies `unwipify`, else `--wip` applies `wipify`, else the
function falls through and returns `None`. -/
def handle_title (mr : MergeRequest) (args : Args) : Option String :=
  if strTruthy args.mr_title then args.mr_title
  else
    let title := mr.title
    if args.ready then unwipify title
    else if args.wip then wipify title
    else none

/-- A character on which push.py splits remote URLs: `re.split("[:/]", url)`. -/
def delimCS (c : Char) : Bool := c == ':' || c == '/'

/-- Embeds `re.split` with a single-character class: split on every
delimiter occurrence, keeping empty pieces, never dropping the last piece. -/
def splitChars (p : Char → Bool) : List Char → List (List Char)
  | [] => [[]]
  | c :: cs =>
    let rest := splitChars p cs
    if p c then [] :: rest
    else (c :: rest.headD []) :: rest.tail

/-- Python `parts[-2:]`: the last two elements (or the whole list when
shorter). -/
def lastTwo (l : List (List Char)) : List (List Char) := l.drop (l.length - 2)

/-- Python `"/".join(parts)` on character lists. -/
def joinSlash : List (List Char) → List Char
  | [] => []
  | [x] => x
  | x :: xs => x ++ '/' :: joinSlash xs

/-- Python `res.endswith(suffixStr)` on character lists. -/
def endsWithL (l s : List Char) : Bool := decide (s <:+ l)

/-- Embeds `project_name_from_url`: split on `:` or `/`, join the last two
pieces with `/`, then strip one trailing ".git" (`res[:-4]`). -/
def project_name_from_url (url : String) : String :=
  let parts := splitChars delimCS url.data
  let res := joinSlash (lastTwo parts)
  if endsWithL res (".git").data then String.mk (res.take (res.length - 4))
  else String.mk res

/-- Python `needle in haystack` for strings: contiguous substring test. -/
def strContains (needle hay : String) : Bool := decide (needle.data <:+: hay.data)

/-- Embeds `get_service`: GitHub iff the URL contains "github", GitLab
otherwise. -/
inductive Service where
  | github
  | gitlab
deriving DecidableEq

/-- Embeds `get_service` from push.py. -/
def get_service (url : String) : Service :=
  if strContains "github" url then Service.github else Service.gitlab

/-- Embedding of the third-party `unidecode.unidecode` transliteration,
restricted to ASCII (kept as is) and the Latin accented letters exercised
by this code base; other characters fold to nothing. -/
def unidecodeChar (c : Char) : List Char :=
  match c with
  | 'á' | 'à' | 'â' | 'ä' | 'ã' | 'å' => ['a']
  | 'é' | 'è' | 'ê' | 'ë' => ['e']
  | 'í' | 'ì' | 'î' | 'ï' => ['i']
  | 'ó' | 'ò' | 'ô' | 'ö' | 'õ' => ['o']
  | 'ú' | 'ù' | 'û' | 'ü' => ['u']
  | 'ñ' => ['n']
  | 'ç' => ['c']
  | 'Á' | 'À' | 'Â' | 'Ä' | 'Ã' | 'Å' => ['A']
  | 'É' | 'È' | 'Ê' | 'Ë' => ['E']
  | 'Í' | 'Ì' | 'Î' | 'Ï' => ['I']
  | 'Ó' | 'Ò' | 'Ô' | 'Ö' | 'Õ' => ['O']
  | 'Ú' | 'Ù' | 'Û' | 'Ü' => ['U']
  | 'Ñ' => ['N']
  | 'Ç' => ['C']
  | _ => if c.toNat < 128 then [c] else []

/-- Embeds `sanitize` inside `get_assignee`: transliterate with unidecode,
then lower-case. -/
def sanitizeChars (s : String) : List Char :=
  ((s.data.map unidecodeChar).flatten).map Char.toLower

/-- One candidate test of the matching loop in `get_assignee`:
`sanitized_pattern in sanitized_name`. -/
def matchesUser (pattern : String) (u : User) : Bool :=
  decide (sanitizeChars pattern <:+: sanitizeChars u.name)

/-- The matches list built by the loop in `get_assignee` (append in input
order = filter). -/
def matchedUsers (users : List User) (pattern : String) : List User :=
  users.filter (fun u => matchesUser pattern u)

/-- Embeds `GitLabMRHandler.get_assignee`.  Returns the resolution result
and whether `get_active_users` was called.  The did-you-mean suggestion of
the external ui library is modelled by the base message only; no claim
depends on it. -/
def get_assignee (users : List User) (pattern : Option String) :
    Except String (Option User) × Bool :=
  if !(strTruthy pattern) then (Except.ok none, false)
  else
    let p := pattern.getD ""
    let hits := matchedUsers users p
    if hits.length = 0 then
      (Except.error ("No user found matching " ++ p), true)
    else if 1 < hits.length then
      (Except.error ("Found several users matching " ++ p ++ ": " ++
        String.intercalate ", " (hits.map User.name)), true)
    else (Except.ok hits.head?, true)

/-- Handler identity from `MRHandler.__init__`. -/
structure MRInfo where
  project_name : String
  source_branch : String
  target_branch : String

/-- One forge or git side effect issued by push.py, recorded in order. -/
inductive ApiCall where
  | gitPush (branch : String) (force : Bool)
  | getActiveUsers
  | findMergeRequest (projectId : Nat) (sourceBranch : String)
  | createMergeRequest (projectId : Nat) (sourceBranch : String)
      (title : String) (targetBranch : String)
  | updateMergeRequest (mr : MergeRequest) (title : Option String)
      (targetBranch : String) (removeSourceBranch : Bool)
      (assigneeId : Option Nat)
  | acceptMergeRequest (mr : MergeRequest)
deriving DecidableEq

/-- The GitLab API collaborator (`tsrc.gitlab.GitLabHelper`), abstracted by
its observable answers: project id lookup, active users, the open merge
request for a (project, branch) pair, and the merge request a create call
returns. -/
structure GitLabApi where
  projectIdOf : String → Nat
  activeUsers : List User
  openMR : Nat → String → Option MergeRequest
  newMR : MergeRequest

/-- Embeds `GitLabMRHandler.find_merge_request` (with the memoized project
id resolved through the api). -/
def find_merge_request (api : GitLabApi) (h : MRInfo) :
    Option MergeRequest × List ApiCall :=
  let pid := api.projectIdOf h.project_name
  (api.openMR pid h.source_branch, [ApiCall.findMergeRequest pid h.source_branch])

/-- Embeds `GitLabMRHandler.create_merge_request`: title is the source
branch, target branch comes from the handler. -/
def create_merge_request (api : GitLabApi) (h : MRInfo) :
    MergeRequest × List ApiCall :=
  let pid := api.projectIdOf h.project_name
  (api.newMR,
    [ApiCall.createMergeRequest pid h.source_branch h.source_branch
      h.target_branch])

/-- Embeds `MRHandler.ensure_merge_request`: find, reuse when found, create
otherwise; a single pass. -/
def ensure_merge_request (api : GitLabApi) (h : MRInfo) :
    MergeRequest × List ApiCall :=
  let found := find_merge_request api h
  match found.1 with
  | some mr => (mr, found.2)
  | none =>
    let created := create_merge_request api h
    (created.1, found.2 ++ created.2)

/-- Embeds `MRHandler.handle` for the GitLab backend: resolve assignee,
ensure the merge request, compute the title, issue exactly one update
(with `remove_source_branch: True`), optionally accept. -/
def handle (api : GitLabApi) (h : MRInfo) (args : Args) :
    List ApiCall × Except String Unit :=
  let ares := get_assignee api.activeUsers args.assignee
  let atrace := if ares.2 then [ApiCall.getActiveUsers] else []
  match ares.1 with
  | Except.error e => (atrace, Except.error e)
  | Except.ok assignee =>
    let mre := ensure_merge_request api h
    let mr := mre.1
    let title := handle_title mr args
    (atrace ++ mre.2
      ++ [ApiCall.updateMergeRequest mr title h.target_branch true
            (assignee.map User.id)]
      ++ (if args.accept then [ApiCall.acceptMergeRequest mr] else []),
     Except.ok ())

/-- The environment `main` reads before pushing: the origin remote URL and
the current branch (read through the out-of-scope git collaborator), the
GitLab api, and whether the push subprocess succeeds.
Modelled from the spec: `tsrc.git.run_git` is not part of the sources
here; per the spec a nonzero push status is fatal and aborts the run, so
the push outcome is a boolean of the environment. -/
structure Env where
  projectUrl : String
  currentBranch : String
  pushSucceeds : Bool
  api : GitLabApi

/-- Embeds `main` from push.py: derive the project name and service from
the remote URL, push first, then hand over to the handler.  The GitHub
branch of the dispatch crashes inside `handle` before any forge call
(`GitHubMRHandler.get_assignee` takes no argument but is called with one),
so it is modelled as an error right after the push. -/
def tsrcMain (env : Env) (args : Args) : List ApiCall × Except String Unit :=
  let name := project_name_from_url env.projectUrl
  let sb := env.currentBranch
  let pushTrace := [ApiCall.gitPush sb args.force]
  if env.pushSucceeds = false then (pushTrace, Except.error "git push failed")
  else
    match get_service env.projectUrl with
    | Service.github => (pushTrace, Except.error "TypeError in get_assignee")
    | Service.gitlab =>
      let h : MRInfo := ⟨name, sb, args.target_branch⟩
      let r := handle env.api h args
      (pushTrace ++ r.1, r.2)

/-- Recognizes a find call in a trace. -/
def isFindCall : ApiCall → Bool
  | ApiCall.findMergeRequest _ _ => true
  | _ => false

/-- Recognizes a create call in a trace. -/
def isCreateCall : ApiCall → Bool
  | ApiCall.createMergeRequest _ _ _ _ => true
  | _ => false

/-- Example merge request found on the forge, for concrete evaluations. -/
def exMr : MergeRequest := ⟨12, "Fix crash", "http://gitlab.example/mr/12"⟩

/-- Example api whose find call succeeds with `exMr`. -/
def exApi : GitLabApi :=
  { projectIdOf := fun _ => 7, activeUsers := [],
    openMR := fun _ _ => some exMr, newMR := exMr }

/-- Example handler identity. -/
def exInfo : MRInfo := ⟨"foo/bar", "feat-x", "master"⟩

/-- Example arguments: plain push, no explicit title, no WIP directive. -/
def exArgs : Args :=
  { mr_title := none, ready := false, wip := false, accept := false,
    assignee := none, target_branch := "master", force := false }

/-- Example api whose find call comes back empty. -/
def exApi4 : GitLabApi :=
  { projectIdOf := fun _ => 4, activeUsers := [],
    openMR := fun _ _ => none,
    newMR := ⟨21, "feat-y", "http://gitlab.example/mr/21"⟩ }

/-- Example handler identity for the creation case. -/
def exInfo4 : MRInfo := ⟨"grp/proj", "feat-y", "develop"⟩

/-- Example environment whose git push fails. -/
def env5 : Env :=
  { projectUrl := "git@gitlab.example.com:grp/proj.git",
    currentBranch := "topic", pushSucceeds := false,
    api := { projectIdOf := fun _ => 4, activeUsers := [],
             openMR := fun _ _ => none, newMR := ⟨3, "t", "u"⟩ } }

/-- Example arguments for the failed-push run. -/
def args5 : Args :=
  { mr_title := none, ready := false, wip := false, accept := false,
    assignee := none, target_branch := "master", force := false }

/-- The two-account list of the ambiguity example. -/
def aliceUsers : List User := [⟨1, "Alice Smith"⟩, ⟨2, "Alicia Stone"⟩]

theorem isPrefixOf_append_self (l m : List Char) :
    l.isPrefixOf (l ++ m) = true := by
  rw [List.isPrefixOf_iff_prefix]
  exact List.prefix_append l m

theorem splitChars_ne_nil (p : Char → Bool) (l : List Char) :
    splitChars p l ≠ [] := by
  induction l with
  | nil => simp [splitChars]
  | cons c cs ih =>
    simp only [splitChars]
    split <;> simp

theorem mem_splitChars_not_delim (p : Char → Bool) (l : List Char) :
    ∀ s ∈ splitChars p l, ∀ c ∈ s, p c = false := by
  induction l with
  | nil =>
    intro s hs c hc
    simp only [splitChars, List.mem_singleton] at hs
    subst hs
    simp at hc
  | cons a as ih =>
    intro s hs c hc
    simp only [splitChars] at hs
    by_cases hpa : p a = true
    · rw [if_pos hpa] at hs
      rcases List.mem_cons.mp hs with h | h
      · subst h; simp at hc
      · exact ih s h c hc
    · rw [if_neg hpa] at hs
      rcases List.mem_cons.mp hs with h | h
      · subst h
        rcases List.mem_cons.mp hc with h1 | h1
        · subst h1; exact Bool.not_eq_true _ ▸ Bool.of_not_eq_true hpa
        · cases hsp : splitChars p as with
          | nil => exact absurd hsp (splitChars_ne_nil p as)
          | cons r rs =>
            rw [hsp] at h1
            simp only [List.headD_cons] at h1
            exact ih r (by rw [hsp]; exact List.mem_cons_self r rs) c h1
      · cases hsp : splitChars p as with
        | nil => exact absurd hsp (splitChars_ne_nil p as)
        | cons r rs =>
          rw [hsp] at h
          simp only [List.tail_cons] at h
          exact ih s (by rw [hsp]; exact List.mem_cons_of_mem r h) c hc

theorem lastTwo_cases (l : List (List Char)) (h : l ≠ []) :
    (∃ a, lastTwo l = [a]) ∨ (∃ a b, lastTwo l = [a, b]) := by
  rcases l with _ | ⟨x, xs⟩
  · exact absurd rfl h
  rcases xs with _ | ⟨y, ys⟩
  · exact Or.inl ⟨x, rfl⟩
  · right
    have hl : (lastTwo (x :: y :: ys)).length = 2 := by
      unfold lastTwo
      rw [List.length_drop]
      simp
      omega
    rcases List.length_eq_two.mp hl with ⟨a, b, hab⟩
    exact ⟨a, b, hab⟩

theorem lastTwo_subset (l : List (List Char)) : ∀ s ∈ lastTwo l, s ∈ l :=
  fun _ hs => List.drop_subset _ l hs

/-- A suffix free of the separator character passes through an appended
separator block: it must already be a suffix of the right part. -/
theorem suffix_through_append_cons {s a b : List Char} {d : Char}
    (hd : d ∉ s) (h : s <:+ a ++ d :: b) : s <:+ b := by
  have hdb : (d :: b) <:+ a ++ d :: b := List.suffix_append a (d :: b)
  rcases List.suffix_or_suffix_of_suffix h hdb with h1 | h1
  · rcases List.suffix_cons_iff.mp h1 with h2 | h2
    · subst h2; exact absurd (List.mem_cons_self d b) hd
    · exact h2
  · exact absurd (h1.subset (List.mem_cons_self d b)) hd

theorem ne_slash_of_delim_false {c : Char} (h : delimCS c = false) :
    c ≠ '/' := by
  intro hc
  subst hc
  simp [delimCS] at h

theorem slash_not_mem {s : List Char}
    (h : ∀ c ∈ s, delimCS c = false) : '/' ∉ s :=
  fun hm => ne_slash_of_delim_false (h _ hm) rfl

theorem head_of_append_mem {a rest : List Char} {c : Char} (ha : a ≠ [])
    (h : (a ++ rest).head? = some c) : c ∈ a := by
  cases a with
  | nil => exact absurd rfl ha
  | cons x xs =>
    simp only [List.cons_append, List.head?_cons, Option.some.injEq] at h
    subst h
    exact List.mem_cons_self x xs

theorem mem_of_getLast?_eq {l : List Char} {c : Char}
    (h : l.getLast? = some c) : c ∈ l := by
  rw [List.getLast?_eq_head?_reverse] at h
  have : c ∈ l.reverse := List.mem_of_mem_head? (by rw [h]; rfl)
  exact List.mem_reverse.mp this

theorem getLast?_append_ne_nil {l m : List Char} (hm : m ≠ []) :
    (l ++ m).getLast? = m.getLast? := by
  rw [List.getLast?_eq_head?_reverse, List.getLast?_eq_head?_reverse,
    List.reverse_append]
  cases hrm : m.reverse with
  | nil => exact absurd (List.reverse_eq_nil_iff.mp hrm) hm
  | cons r rs => simp

/-- The three conclusions of the C6 invariant for a character list coming
from delimiter-free pieces. -/
theorem refChars_ok_of_clean {r : List Char}
    (hmem : ∀ c ∈ r, delimCS c = false)
    (hsuf : ¬ ((".git").data <:+ r)) :
    (∀ c, r.head? = some c → c ≠ '/')
    ∧ (∀ c, r.getLast? = some c → c ≠ '/')
    ∧ ¬ ((".git").data <:+ r) :=
  ⟨fun _ hc => ne_slash_of_delim_false
      (hmem _ (List.mem_of_mem_head? (by rw [hc]; rfl))),
   fun _ hc => ne_slash_of_delim_false (hmem _ (mem_of_getLast?_eq hc)),
   hsuf⟩

/-- C2: the first half of the claim holds (a non-WIP title gets the prefix),
but for a title already starting with "WIP: " the code returns None, not the
title unchanged: the function falls through without a return value. -/
theorem wipify_eval_at_failing_input :
    wipify "WIP: add feature" = none
      ∧ wipify "add feature" = some "WIP: add feature" := by
  constructor <;> rfl

/-- C3: the first half of the claim holds (one leading "WIP: " is stripped),
but for a title not starting with "WIP: " the code returns None, not the
title unchanged: the function falls through without a return value. -/
theorem unwipify_eval_at_failing_input :
    unwipify "WIP: fix crash" = some "fix crash"
      ∧ unwipify "fix crash" = none := by
  constructor <;> rfl

/-- C9: round trip.  For a title not already WIP-prefixed, `wipify` yields
the prefixed title and `unwipify` strips the prefix back off, recovering
the original title. -/
theorem wip_round_trip (t : String)
    (h : wipMarker.data.isPrefixOf t.data = false) :
    (wipify t).bind unwipify = some t := by
  have hp : wipMarker.data.isPrefixOf (wipMarker.data ++ t.data) = true :=
    isPrefixOf_append_self _ _
  simp only [wipify, h, Bool.not_false, if_true, Option.some_bind,
    unwipify, hp, String.data_append, List.drop_left]

/-- Witness for C9 at the concrete title "fix crash". -/
theorem wip_round_trip_witness :
    wipMarker.data.isPrefixOf ("fix crash").data = false
      ∧ (wipify "fix crash").bind unwipify = some "fix crash" :=
  ⟨by decide, wip_round_trip "fix crash" (by decide)⟩

theorem gitgit_data : (".git").data ++ (".git").data = (".git.git").data := by
  decide

/-- C6 counterexample: stripping is done once only, so a URL whose last
segment ends in ".git.git" yields a reference that still ends with ".git",
violating the invariant as claimed for every URL. -/
theorem project_name_git_suffix_cex :
    project_name_from_url "git@example.com:foo/bar.git.git" = "foo/bar.git"
    ∧ (".git").data <:+
        (project_name_from_url "git@example.com:foo/bar.git.git").data := by
  constructor
  · rfl
  · decide

/-- C6 amended: for every URL whose last two delimiter-separated segments
are nonempty, differ from ".git", and do not end in ".git.git", the
computed reference has no leading slash, no trailing slash, and does not
end with ".git". -/
theorem project_name_from_url_ok (url : String)
    (h : ∀ s ∈ lastTwo (splitChars delimCS url.data),
        s ≠ [] ∧ s ≠ (".git").data ∧ ¬ ((".git.git").data <:+ s)) :
    (∀ c, (project_name_from_url url).data.head? = some c → c ≠ '/')
    ∧ (∀ c, (project_name_from_url url).data.getLast? = some c → c ≠ '/')
    ∧ ¬ ((".git").data <:+ (project_name_from_url url).data) := by
  have hnd : ∀ s ∈ splitChars delimCS url.data, ∀ c ∈ s, delimCS c = false :=
    mem_splitChars_not_delim delimCS url.data
  have hne : splitChars delimCS url.data ≠ [] := splitChars_ne_nil _ _
  rcases lastTwo_cases _ hne with ⟨a, ha⟩ | ⟨a, b, hab⟩
  · have hamem : a ∈ splitChars delimCS url.data :=
      lastTwo_subset _ _ (by rw [ha]; exact List.mem_cons_self a [])
    obtain ⟨hane, hadotgit, hagg⟩ := h a (by rw [ha]; exact List.mem_cons_self a [])
    have haclean : ∀ c ∈ a, delimCS c = false := hnd a hamem
    cases hq : endsWithL a (".git").data with
    | true =>
      have hsufa : (".git").data <:+ a := of_decide_eq_true hq
      obtain ⟨u, hu⟩ := hsufa
      have hres : (project_name_from_url url).data = a.take (a.length - 4) := by
        simp only [project_name_from_url, ha, joinSlash, hq, if_true]
      have htake : a.take (a.length - 4) = u := by
        rw [← hu]
        apply List.take_left'
        have h4 : ((".git").data).length = 4 := rfl
        simp only [List.length_append, h4]
        omega
      rw [hres, htake]
      apply refChars_ok_of_clean
      · intro c hc
        exact haclean c (by rw [← hu]; exact List.mem_append_left _ hc)
      · intro hgit
        obtain ⟨v, hv⟩ := hgit
        exact hagg ⟨v, by rw [← hu, ← hv, List.append_assoc, gitgit_data]⟩
    | false =>
      have hnsuf : ¬ ((".git").data <:+ a) := of_decide_eq_false hq
      have hres : (project_name_from_url url).data = a := by
        simp only [project_name_from_url, ha, joinSlash, hq,
          Bool.false_eq_true, if_false]
      rw [hres]
      exact refChars_ok_of_clean haclean hnsuf
  · have hamem : a ∈ splitChars delimCS url.data :=
      lastTwo_subset _ _ (by rw [hab]; exact List.mem_cons_self a [b])
    have hbmem : b ∈ splitChars delimCS url.data :=
      lastTwo_subset _ _
        (by rw [hab]; exact List.mem_cons_of_mem a (List.mem_cons_self b []))
    obtain ⟨hane, _, _⟩ := h a (by rw [hab]; exact List.mem_cons_self a [b])
    obtain ⟨hbne, hbdotgit, hbgg⟩ :=
      h b (by rw [hab]; exact List.mem_cons_of_mem a (List.mem_cons_self b []))
    have haclean : ∀ c ∈ a, delimCS c = false := hnd a hamem
    have hbclean : ∀ c ∈ b, delimCS c = false := hnd b hbmem
    cases hq : endsWithL (a ++ '/' :: b) (".git").data with
    | true =>
      have hsuf : (".git").data <:+ a ++ '/' :: b := of_decide_eq_true hq
      have hsufb : (".git").data <:+ b :=
        suffix_through_append_cons (by decide) hsuf
      obtain ⟨b', hb'⟩ := hsufb
      have hres : (project_name_from_url url).data =
          (a ++ '/' :: b).take ((a ++ '/' :: b).length - 4) := by
        simp only [project_name_from_url, hab, joinSlash, hq, if_true]
      have hsplit : a ++ '/' :: b = (a ++ '/' :: b') ++ (".git").data := by
        rw [← hb', List.append_assoc, List.cons_append]
      have htake : (a ++ '/' :: b).take ((a ++ '/' :: b).length - 4) =
          a ++ '/' :: b' := by
        rw [hsplit]
        apply List.take_left'
        have h4 : ((".git").data).length = 4 := rfl
        simp only [List.length_append, h4]
        omega
      rw [hres, htake]
      refine ⟨?_, ?_, ?_⟩
      · intro c hc
        exact ne_slash_of_delim_false (haclean c (head_of_append_mem hane hc))
      · intro c hc
        by_cases hb'e : b' = []
        · rw [hb'e, List.nil_append] at hb'
          exact absurd hb'.symm hbdotgit
        · rw [getLast?_append_ne_nil (List.cons_ne_nil '/' b')] at hc
          have hc2 : ((['/'] ++ b' : List Char)).getLast? = some c := hc
          rw [getLast?_append_ne_nil hb'e] at hc2
          have hcb : c ∈ b := by
            rw [← hb']
            exact List.mem_append_left _ (mem_of_getLast?_eq hc2)
          exact ne_slash_of_delim_false (hbclean c hcb)
      · intro hgit
        have hsb' : (".git").data <:+ b' :=
          suffix_through_append_cons (by decide) hgit
        obtain ⟨v, hv⟩ := hsb'
        exact hbgg ⟨v, by rw [← hb', ← hv, List.append_assoc, gitgit_data]⟩
    | false =>
      have hnsuf : ¬ ((".git").data <:+ a ++ '/' :: b) := of_decide_eq_false hq
      have hres : (project_name_from_url url).data = a ++ '/' :: b := by
        simp only [project_name_from_url, hab, joinSlash, hq,
          Bool.false_eq_true, if_false]
      rw [hres]
      refine ⟨?_, ?_, hnsuf⟩
      · intro c hc
        exact ne_slash_of_delim_false (haclean c (head_of_append_mem hane hc))
      · intro c hc
        rw [getLast?_append_ne_nil (List.cons_ne_nil '/' b)] at hc
        have hc2 : ((['/'] ++ b : List Char)).getLast? = some c := hc
        rw [getLast?_append_ne_nil hbne] at hc2
        exact ne_slash_of_delim_false (hbclean c (mem_of_getLast?_eq hc2))

/-- Witness for C6 amended at an SCP-style URL of the docstring. -/
theorem project_name_from_url_ok_witness :
    (∀ s ∈ lastTwo (splitChars delimCS ("git@example.com:foo/bar.git").data),
        s ≠ [] ∧ s ≠ (".git").data ∧ ¬ ((".git.git").data <:+ s))
    ∧ ¬ ((".git").data <:+
          (project_name_from_url "git@example.com:foo/bar.git").data) :=
  ⟨by decide,
    (project_name_from_url_ok "git@example.com:foo/bar.git" (by decide)).2.2⟩

/-- C1: in a run with no explicit title and no WIP directive, `handle`
issues its single update call with title None instead of the current title
"Fix crash": the title is dropped, not passed through. -/
theorem handle_drops_current_title :
    (handle exApi exInfo exArgs).1 =
      [ApiCall.findMergeRequest 7 "feat-x",
       ApiCall.updateMergeRequest exMr none "master" true none]
      ∧ exMr.title = "Fix crash" := by
  constructor <;> rfl

/-- C4: `ensure_merge_request` performs exactly one find; when an open
merge request exists it is reused and no create call is issued; otherwise
the trace is exactly find-then-create, the create call carrying the source
branch as title and the target branch of the caller, with no re-check. -/
theorem ensure_merge_request_find_or_create (api : GitLabApi) (h : MRInfo) :
    (ensure_merge_request api h).2.countP isFindCall = 1
    ∧ (∀ mr,
        api.openMR (api.projectIdOf h.project_name) h.source_branch = some mr →
          (ensure_merge_request api h).1 = mr
          ∧ (ensure_merge_request api h).2.countP isCreateCall = 0)
    ∧ (api.openMR (api.projectIdOf h.project_name) h.source_branch = none →
        (ensure_merge_request api h).1 = api.newMR
        ∧ (ensure_merge_request api h).2 =
            [ApiCall.findMergeRequest (api.projectIdOf h.project_name)
               h.source_branch,
             ApiCall.createMergeRequest (api.projectIdOf h.project_name)
               h.source_branch h.source_branch h.target_branch]) := by
  cases hopen : api.openMR (api.projectIdOf h.project_name) h.source_branch with
  | none =>
    simp [ensure_merge_request, find_merge_request, create_merge_request,
      hopen, isFindCall, isCreateCall, List.countP_cons]
  | some mr =>
    simp [ensure_merge_request, find_merge_request, create_merge_request,
      hopen, isFindCall, isCreateCall, List.countP_cons]

/-- Witness for C4 at a concrete api with no open merge request: the
create call is issued once, titled after the source branch. -/
theorem ensure_merge_request_find_or_create_witness :
    exApi4.openMR (exApi4.projectIdOf exInfo4.project_name)
        exInfo4.source_branch = none
    ∧ (ensure_merge_request exApi4 exInfo4).1 = exApi4.newMR
    ∧ (ensure_merge_request exApi4 exInfo4).2 =
        [ApiCall.findMergeRequest 4 "feat-y",
         ApiCall.createMergeRequest 4 "feat-y" "feat-y" "develop"] :=
  ⟨rfl,
    ((ensure_merge_request_find_or_create exApi4 exInfo4).2.2 rfl).1,
    ((ensure_merge_request_find_or_create exApi4 exInfo4).2.2 rfl).2⟩

/-- C5: every run starts its side-effect trace with the git push, and when
the push fails the trace contains no find call and no create call. -/
theorem main_push_first (env : Env) (args : Args) :
    (tsrcMain env args).1.head? =
      some (ApiCall.gitPush env.currentBranch args.force)
    ∧ (env.pushSucceeds = false →
        (tsrcMain env args).1.countP isFindCall = 0
        ∧ (tsrcMain env args).1.countP isCreateCall = 0) := by
  cases hp : env.pushSucceeds with
  | false =>
    simp [tsrcMain, hp, isFindCall, isCreateCall, List.countP_cons]
  | true =>
    cases hs : get_service env.projectUrl with
    | github => simp [tsrcMain, hp, hs]
    | gitlab => simp [tsrcMain, hp, hs]

/-- Witness for C5 at a concrete environment whose push fails. -/
theorem main_push_first_witness :
    env5.pushSucceeds = false
    ∧ (tsrcMain env5 args5).1.countP isFindCall = 0
    ∧ (tsrcMain env5 args5).1.countP isCreateCall = 0 :=
  ⟨rfl, ((main_push_first env5 args5).2 rfl).1,
    ((main_push_first env5 args5).2 rfl).2⟩

/-- C7 counterexample: with the empty pattern both accounts match under the
substring definition of the claim, yet resolution returns no assignee
successfully instead of failing with the ambiguity error. -/
theorem ambiguity_empty_pattern_cex :
    (matchedUsers aliceUsers "").length = 2
    ∧ (get_assignee aliceUsers (some "")).1 = Except.ok none := by
  constructor <;> rfl

/-- C7 amended: for every nonempty pattern matched by two or more accounts,
resolution fails with the error listing all matched display names,
comma-joined; the matched list is a sublist of the input accounts, hence in
input order. -/
theorem get_assignee_multiple_matches (users : List User) (p : String)
    (hp : (p == "") = false)
    (h2 : 2 ≤ (matchedUsers users p).length) :
    (get_assignee users (some p)).1 =
      Except.error ("Found several users matching " ++ p ++ ": " ++
        String.intercalate ", " ((matchedUsers users p).map User.name))
    ∧ List.Sublist ((matchedUsers users p).map User.name)
        (users.map User.name) := by
  constructor
  · have h0 : ¬ ((matchedUsers users p).length = 0) := by omega
    have h1 : 1 < (matchedUsers users p).length := by omega
    simp [get_assignee, strTruthy, hp, h0, h1]
  · exact List.Sublist.map User.name (List.filter_sublist users)

/-- Witness for C7 amended: pattern "ali" against Alice Smith and Alicia
Stone fails listing both names in input order. -/
theorem get_assignee_multiple_matches_witness :
    ("ali" == "") = false
    ∧ 2 ≤ (matchedUsers aliceUsers "ali").length
    ∧ (get_assignee aliceUsers (some "ali")).1 =
        Except.error
          "Found several users matching ali: Alice Smith, Alicia Stone" :=
  ⟨by decide, by decide,
    (get_assignee_multiple_matches aliceUsers "ali" (by decide)
        (by decide)).1⟩

/-- C8: a candidate is kept by the matching loop iff it is an input account
whose sanitized display name contains the sanitized pattern as a contiguous
substring (transliterate to ASCII, then lower-case); in particular the
pattern "jose" matches the display name "José García". -/
theorem matching_accent_and_case_insensitive :
    (∀ (users : List User) (p : String) (u : User),
        u ∈ matchedUsers users p
          ↔ u ∈ users ∧ sanitizeChars p <:+: sanitizeChars u.name)
    ∧ matchesUser "jose" ⟨3, "José García"⟩ = true := by
  constructor
  · intro users p u
    simp [matchedUsers, matchesUser, List.mem_filter]
  · rfl

/-- C10: an empty assignee pattern behaves exactly like an absent one: no
assignee, no error, and no active-user fetch; by contrast any nonempty
pattern does fetch the active-user list. -/
theorem empty_pattern_like_absent :
    (∀ users : List User,
        get_assignee users (some "") = (Except.ok none, false)
        ∧ get_assignee users none = (Except.ok none, false))
    ∧ (∀ (users : List User) (p : String), (p == "") = false →
        (get_assignee users (some p)).2 = true) := by
  constructor
  · intro users
    exact ⟨rfl, rfl⟩
  · intro users p hp
    simp only [get_assignee, strTruthy, hp, Bool.not_false, Bool.not_true,
      Bool.false_eq_true, if_false, Option.getD_some]
    split <;> [rfl; skip]
    split <;> rfl

/-- Witness for C10 at a concrete nonempty pattern: the user list is
fetched. -/
theorem empty_pattern_like_absent_witness :
    ("bob" == "") = false
    ∧ (get_assignee [⟨9, "Bob Lee"⟩] (some "bob")).2 = true :=
  ⟨by decide, empty_pattern_like_absent.2 [⟨9, "Bob Lee"⟩] "bob" (by decide)⟩

end Tsrc
